import Mathlib

/-!
Shallow embedding of the typing-trainer core of this repository
(`src/main.rs` and `src/save_data.rs`), together with theorems checking the
specification's claims about it.

Modelling conventions:
* Romanization patterns (ASCII strings in the source) and kana strings are
  modelled as `List Char`; Rust byte indexing into the ASCII patterns
  coincides with character indexing.
* Machine integers (`usize`, `u32`) are modelled as `Nat`; Rust
  `saturating_sub` is `Nat` subtraction.
* `f64` arithmetic in the scorer is modelled over `ℚ` (exact field
  arithmetic); `f64::round` (round half away from zero) agrees with
  Mathlib's `round` on the non-negative values that occur, and the
  saturating `as u32` cast on a non-negative value is `Int.toNat`.
* The round timer (`start_time : Option<Instant>`) is modelled at the
  scoring boundary as an `Option ℚ` duration; keystroke handling itself
  does not read it.
-/

/-- Model of the Rust struct `CharState` (`src/main.rs`): one typing unit,
holding the source kana text, the candidate romanization patterns, the index
of the currently assumed pattern, and the number of confirmed characters. -/
structure CharState where
  hiragana : List Char
  patterns : List (List Char)
  current_pattern_idx : Nat
  typed_count : Nat

deriving instance DecidableEq for CharState

/-- Model of `CharState::new`: assumed index 0, confirmed count 0. -/
def CharState.new (h : List Char) (ps : List (List Char)) : CharState :=
  ⟨h, ps, 0, 0⟩

/-- Model of `CharState::current_pattern`: the currently assumed pattern.
The Rust code indexes `patterns[current_pattern_idx]`; the model totalises
the out-of-range case (unreachable under the well-formedness invariant)
with the empty pattern. -/
def CharState.current_pattern (cs : CharState) : List Char :=
  cs.patterns.getD cs.current_pattern_idx []

/-- Model of `CharState::is_complete`: `typed_count >= current_pattern().len()`. -/
def CharState.is_complete (cs : CharState) : Bool :=
  cs.current_pattern.length ≤ cs.typed_count

/-- Model of `CharState::remaining`: the untyped suffix of the assumed pattern. -/
def CharState.remaining (cs : CharState) : List Char :=
  cs.current_pattern.drop cs.typed_count

/-- Model of `self.char_states[..].remaining().chars().next()` in
`handle_char_input`: the expected next character. -/
def CharState.expected (cs : CharState) : Option Char :=
  cs.remaining.head?

/-- Model of the candidate-switch scan in `handle_char_input`
(`src/main.rs` lines 270-291): walk the pattern list with its index,
skip the currently assumed index `cur`, and return the first index whose
pattern starts with the confirmed prefix `pre` and has `c` at offset `tc`. -/
def findSwitchAux (cur tc : Nat) (pre : List Char) (c : Char) :
    List (List Char) → Nat → Option Nat
  | [], _ => none
  | p :: ps, i =>
    if i ≠ cur ∧ pre.isPrefixOf p ∧ p.get? tc = some c then some i
    else findSwitchAux cur tc pre c ps (i + 1)

/-- The switch scan applied to a unit: `pre` is
`&current_pattern()[..typed_count]` from the source. -/
def findSwitch (cs : CharState) (c : Char) : Option Nat :=
  findSwitchAux cs.current_pattern_idx cs.typed_count
    (cs.current_pattern.take cs.typed_count) c cs.patterns 0

/-- The per-unit effect of one keystroke in `handle_char_input`:
`some` of the mutated unit when the keystroke advances the assumed pattern
or switches to another candidate, `none` when it is a miss. -/
def CharState.processChar (cs : CharState) (c : Char) : Option CharState :=
  if cs.expected = some c then
    some { cs with typed_count := cs.typed_count + 1 }
  else
    match findSwitch cs c with
    | some i => some { cs with current_pattern_idx := i, typed_count := cs.typed_count + 1 }
    | none => none

/-- The round-relevant fields of the Rust struct `AppState`
(`src/main.rs`): the unit list, the cursor, the error flag and the
mistake counter. -/
structure RoundState where
  char_states : List CharState
  current_char_index : Nat
  is_error : Bool
  current_misses : Nat

deriving instance DecidableEq for RoundState

/-- Model of `AppState::handle_char_input` (`src/main.rs` lines 249-298),
omitting the timer field which the keystroke logic only writes, never reads. -/
def handle_char_input (s : RoundState) (c : Char) : RoundState :=
  if s.current_char_index < s.char_states.length then
    let cs := s.char_states.getD s.current_char_index (CharState.new [] [])
    match cs.processChar c with
    | some cs2 =>
      { s with
        char_states := s.char_states.set s.current_char_index cs2
        is_error := false
        current_char_index :=
          if cs2.is_complete then s.current_char_index + 1 else s.current_char_index }
    | none => { s with is_error := true, current_misses := s.current_misses + 1 }
  else s

/-- Model of `AppState::handle_backspace` (`src/main.rs` lines 301-319).
`prev.current_pattern.length - 1` is `Nat` subtraction, matching
`saturating_sub`. -/
def handle_backspace (s : RoundState) : RoundState :=
  let s1 :=
    if s.char_states.length ≤ s.current_char_index ∧ 0 < s.current_char_index then
      { s with current_char_index := s.current_char_index - 1 }
    else s
  let s2 :=
    if s1.current_char_index < s1.char_states.length then
      let cur := s1.char_states.getD s1.current_char_index (CharState.new [] [])
      if 0 < cur.typed_count then
        { s1 with
          char_states :=
            s1.char_states.set s1.current_char_index { cur with typed_count := cur.typed_count - 1 } }
      else if 0 < s1.current_char_index then
        { s1 with
          current_char_index := s1.current_char_index - 1
          char_states :=
            s1.char_states.set (s1.current_char_index - 1)
              (let prev := s1.char_states.getD (s1.current_char_index - 1) (CharState.new [] [])
               { prev with typed_count := prev.current_pattern.length - 1 }) }
      else s1
    else s1
  { s2 with is_error := false }

/-- Model of `AppState::is_question_complete`. -/
def is_question_complete (s : RoundState) : Bool :=
  s.char_states.length ≤ s.current_char_index

/-- Model of `AppState::parse_hiragana` (`src/main.rs` lines 192-241).
The Rust `while` loop scans by index; each branch below is one loop
iteration on the remaining suffix.  The guard `idx + 2 < chars.len()`
(at least three characters remain) is the third match arm's shape, and
the guard `idx + 1 < chars.len()` is the second's.  The dictionary
(`roman_map`, a `HashMap`) is modelled as a lookup function. -/
def parse_hiragana (dict : List Char → Option (List (List Char))) :
    List Char → List CharState
  | [] => []
  | [a] =>
    match dict [a] with
    | some ps => [CharState.new [a] ps]
    | none => []
  | [a, b] =>
    match dict [a, b] with
    | some ps => [CharState.new [a, b] ps]
    | none =>
      match dict [a] with
      | some ps => CharState.new [a] ps :: parse_hiragana dict [b]
      | none => parse_hiragana dict [b]
  | a :: b :: c :: rest =>
    match dict [a, b, c] with
    | some ps => CharState.new [a, b, c] ps :: parse_hiragana dict rest
    | none =>
      match dict [a, b] with
      | some ps => CharState.new [a, b] ps :: parse_hiragana dict (c :: rest)
      | none =>
        match dict [a] with
        | some ps => CharState.new [a] ps :: parse_hiragana dict (b :: c :: rest)
        | none => parse_hiragana dict (b :: c :: rest)

/-- The derived quantities computed by one round's scoring. -/
structure RoundResult where
  accuracy : ℚ
  cps : ℚ
  score : ℚ
  final_xp : Nat

deriving instance DecidableEq for RoundResult

/-- Model of the scoring block of `AppState::next_question`
(`src/main.rs` lines 327-361), over exact rationals in place of `f64`.
`total_chars` and `misses` are the Rust `usize`/`u32` inputs;
`duration_sec` is the elapsed time.  The final `as u32` cast of the
non-negative rounded value is `Int.toNat`. -/
def compute_result (total_chars misses : Nat) (duration_sec : ℚ) : RoundResult :=
  let total_attempts : ℚ := (total_chars : ℚ) + (misses : ℚ)
  let accuracy : ℚ := if 0 < total_attempts then ((total_chars : ℚ) / total_attempts) * 100 else 100
  let cps : ℚ := if 0 < duration_sec then (total_chars : ℚ) / duration_sec else 0
  let score : ℚ := (cps * 100) * (accuracy / 100) ^ 3 * (total_chars : ℚ)
  let base_xp : ℚ := (total_chars : ℚ)
  let skill_bonus : ℚ := 1 + cps / 10
  let accuracy_mod : ℚ := (accuracy / 100) ^ 3
  let final_xp : Nat := (round (base_xp * skill_bonus * accuracy_mod)).toNat
  ⟨accuracy, cps, score, final_xp⟩

/-- Model of the `total_chars` input computed in `next_question`:
the sum over all units of the length of the currently assumed pattern. -/
def round_total_chars (s : RoundState) : Nat :=
  (s.char_states.map (fun cs => cs.current_pattern.length)).sum

/-- Model of the scoring decision of `AppState::next_question`
(`src/main.rs` lines 327-380): the body runs only under
`if let Some(start) = self.start_time`; with no start timestamp the scorer
is never invoked and no result is produced. -/
def next_question_scoring (s : RoundState) (start : Option ℚ) : Option RoundResult :=
  match start with
  | some duration_sec => some (compute_result (round_total_chars s) s.current_misses duration_sec)
  | none => none

/-- The numeric fields of the Rust struct `PlayerData` (`src/save_data.rs`);
the record history is irrelevant to the claims and omitted. -/
structure PlayerData where
  level : Nat
  current_xp : Nat
  total_typed_chars : Nat
  total_misses : Nat

deriving instance DecidableEq for PlayerData

/-- Model of the level-up `while` loop of `PlayerData::add_xp`
(`src/save_data.rs` lines 169-175), with explicit fuel.  `req` abstracts
`required_xp_for_next_level` (whose body is `f64` `powf` arithmetic;
for every level it returns `round(level^1.1 * 10)`, which is at least 10
for level at least 1).  The loop runs while `current_xp >= req level`,
subtracting and incrementing the level, and records whether it ran. -/
def level_loop (req : Nat → Nat) : Nat → Nat → Nat → Bool → Nat × Nat × Bool
  | 0, level, xp, b => (level, xp, b)
  | fuel + 1, level, xp, b =>
    if req level ≤ xp then level_loop req fuel (level + 1) (xp - req level) true
    else (level, xp, b)

/-- Model of `PlayerData::add_xp` (`src/save_data.rs` lines 165-177).
The fuel `current_xp + xp_to_add + 1` is enough for the loop to reach its
exit condition whenever `req` is everywhere positive on the levels it
visits, since each iteration strictly decreases the xp. -/
def add_xp (req : Nat → Nat) (pd : PlayerData) (xp_to_add chars_typed : Nat) :
    PlayerData × Bool :=
  let xp := pd.current_xp + xp_to_add
  let r := level_loop req (xp + 1) pd.level xp false
  (⟨r.1, r.2.1, pd.total_typed_chars + chars_typed, pd.total_misses⟩, r.2.2)

/-- Modelled from the claim's words (C2): candidate `i` of unit `cs` is a
switch target for keystroke `c` when it is a real candidate index other than
the assumed one, starts with the already-confirmed prefix of the assumed
candidate, and has `c` at offset confirmed-count. -/
def SwitchCandidate (cs : CharState) (c : Char) (i : Nat) : Prop :=
  i < cs.patterns.length ∧ i ≠ cs.current_pattern_idx ∧
    (cs.current_pattern.take cs.typed_count).isPrefixOf (cs.patterns.getD i []) ∧
    (cs.patterns.getD i []).get? cs.typed_count = some c

instance (cs : CharState) (c : Char) (i : Nat) : Decidable (SwitchCandidate cs c i) := by
  unfold SwitchCandidate; infer_instance

/-- Modelled from the claim's words (C2): `i` is the first switch target in
candidate-list order. -/
def FirstSwitchCandidate (cs : CharState) (c : Char) (i : Nat) : Prop :=
  SwitchCandidate cs c i ∧ ∀ j < i, ¬ SwitchCandidate cs c j

instance (cs : CharState) (c : Char) (i : Nat) : Decidable (FirstSwitchCandidate cs c i) := by
  unfold FirstSwitchCandidate; infer_instance

/-- Modelled from the claim's words (C3): backspace as the specification
states it.  Step 1: if the cursor equals the unit count and the unit count
is positive, move the cursor back by 1.  Step 2: if the cursor is in range,
decrement the current unit's positive confirmed count; otherwise, if the
cursor is positive, step back and reopen the previous unit at
`max(length(assumed candidate) - 1, 0)` (integer arithmetic).  Step 3:
clear the error flag unconditionally. -/
def backspace_claim (s : RoundState) : RoundState :=
  let s1 :=
    if s.current_char_index = s.char_states.length ∧ 0 < s.char_states.length then
      { s with current_char_index := s.current_char_index - 1 }
    else s
  let s2 :=
    if s1.current_char_index < s1.char_states.length then
      let u := s1.char_states.getD s1.current_char_index (CharState.new [] [])
      if 0 < u.typed_count then
        { s1 with
          char_states :=
            s1.char_states.set s1.current_char_index { u with typed_count := u.typed_count - 1 } }
      else if 0 < s1.current_char_index then
        { s1 with
          current_char_index := s1.current_char_index - 1
          char_states :=
            s1.char_states.set (s1.current_char_index - 1)
              (let v := s1.char_states.getD (s1.current_char_index - 1) (CharState.new [] [])
               { v with
                  typed_count := (((v.current_pattern.length : ℤ) - 1).toNat) }) }
      else s1
    else s1
  { s2 with is_error := false }

/-- Modelled from the claim's words (C6): scan the phrase left to right; at
each position try the 3-character substring (only when at least 3 characters
remain), then the 2-character substring, then the 1-character substring,
emitting a unit and advancing by the matched length on the first hit, and
advancing by 1 with no unit emitted when no length matches. -/
def segment_claim (dict : List Char → Option (List (List Char))) :
    List Char → List CharState
  | [] => []
  | a :: rest =>
    match (if 3 ≤ (a :: rest).length then dict ((a :: rest).take 3) else none) with
    | some ps => CharState.new ((a :: rest).take 3) ps :: segment_claim dict ((a :: rest).drop 3)
    | none =>
      match (if 2 ≤ (a :: rest).length then dict ((a :: rest).take 2) else none) with
      | some ps => CharState.new ((a :: rest).take 2) ps :: segment_claim dict ((a :: rest).drop 2)
      | none =>
        match dict [a] with
        | some ps => CharState.new [a] ps :: segment_claim dict rest
        | none => segment_claim dict rest
termination_by l => l.length
decreasing_by all_goals simp <;> omega

/-- A small concrete dictionary for the C6 witness: a 2-character key
`ab` together with 1-character keys `a` and `b`. -/
def dict6 : List Char → Option (List (List Char)) := fun k =>
  if k = ['a', 'b'] then some [['x']]
  else if k = ['a'] then some [['y']]
  else if k = ['b'] then some [['z']]
  else none

/-- A small concrete dictionary for the C7 witness. -/
def dict7 : List Char → Option (List (List Char)) := fun k =>
  if k = ['a', 'b'] then some [['x']]
  else if k = ['a'] then some [['y']]
  else if k = ['b'] then some [['z']]
  else none

/-- The claim's state invariant (C5): the cursor lies in `[0, unit_count]`
and no unit's confirmed count exceeds the length of its currently assumed
candidate. -/
def StateWF (s : RoundState) : Prop :=
  s.current_char_index ≤ s.char_states.length ∧
  ∀ cs ∈ s.char_states, cs.typed_count ≤ cs.current_pattern.length

instance (s : RoundState) : Decidable (StateWF s) := by
  unfold StateWF; infer_instance

/-- A keystroke is accepted when the round is in progress and the unit at
the cursor advances or switches — the paths of `handle_char_input` that do
not record a mistake. -/
def acceptedB (s : RoundState) (c : Char) : Bool :=
  decide (s.current_char_index < s.char_states.length) &&
    ((s.char_states.getD s.current_char_index (CharState.new [] [])).processChar c).isSome

/-- Every keystroke of the sequence is accepted when the sequence is
applied in order. -/
def acceptedSeq : RoundState → List Char → Bool
  | _, [] => true
  | s, c :: cs => acceptedB s c && acceptedSeq (handle_char_input s c) cs

/-- Apply a keystroke sequence in order. -/
def applyKeys (s : RoundState) (ks : List Char) : RoundState :=
  ks.foldl handle_char_input s

/-- Apply `n` backspaces. -/
def applyBksp : Nat → RoundState → RoundState
  | 0, s => s
  | n + 1, s => applyBksp n (handle_backspace s)

/-- Pattern soundness of one unit: the assumed index is a real candidate
index and every candidate romanization is non-empty (the Pattern Dictionary
invariant of the specification). -/
def UnitOK (cs : CharState) : Prop :=
  cs.current_pattern_idx < cs.patterns.length ∧ ∀ p ∈ cs.patterns, p ≠ []

/-- Reachable-state invariant for the backspace-symmetry argument: cursor
in range, every unit before the cursor complete, every unit strictly after
it untouched, and all units pattern-sound. -/
def Good (s : RoundState) : Prop :=
  s.current_char_index ≤ s.char_states.length
  ∧ (∀ i, i < s.current_char_index →
      (s.char_states.getD i (CharState.new [] [])).typed_count =
        (s.char_states.getD i (CharState.new [] [])).current_pattern.length)
  ∧ (∀ i, s.current_char_index < i → i < s.char_states.length →
      (s.char_states.getD i (CharState.new [] [])).typed_count = 0)
  ∧ ∀ cs ∈ s.char_states, UnitOK cs

/-- Total confirmed characters across the round. -/
def totalTyped (s : RoundState) : Nat :=
  (s.char_states.map (fun cs => cs.typed_count)).sum

/-- Replace only the confirmed count of a unit (the mutation both backspace
branches perform). -/
def setTyped (cs : CharState) (t : Nat) : CharState :=
  ⟨cs.hiragana, cs.patterns, cs.current_pattern_idx, t⟩

/-- C1: for every in-progress round state and keystroke `c`, if `c` equals the
expected next character of the assumed candidate of the unit at the cursor,
then that unit's confirmed count is incremented, the error flag is cleared,
and the cursor advances by exactly 1 if and only if the unit is then
complete; and if neither the advance nor the candidate switch succeeds, the
error flag is set, the mistake count is incremented by exactly 1, and the
unit list (hence every confirmed count and assumed index) and the cursor are
unchanged. -/
theorem C1_handle_char_input_step (s : RoundState) (c : Char) (cs : CharState)
    (hin : s.current_char_index < s.char_states.length)
    (hcs : s.char_states[s.current_char_index] = cs) :
    (cs.expected = some c →
      handle_char_input s c =
        { s with
          char_states :=
            s.char_states.set s.current_char_index { cs with typed_count := cs.typed_count + 1 }
          is_error := false
          current_char_index :=
            if CharState.is_complete { cs with typed_count := cs.typed_count + 1 } then
              s.current_char_index + 1
            else s.current_char_index })
    ∧ (cs.expected ≠ some c → findSwitch cs c = none →
        handle_char_input s c =
          { s with is_error := true, current_misses := s.current_misses + 1 }) := by
  constructor
  · intro hexp
    simp [handle_char_input, hin, hcs, CharState.processChar, hexp]
  · intro hexp hsw
    simp [handle_char_input, hin, hcs, CharState.processChar, hexp, hsw]

/-- Witness for C1 at a concrete input: one unit with the single pattern
`"a"`; typing `'a'` completes the unit and advances the cursor. -/
theorem C1_handle_char_input_step_witness :
    (0 : Nat) < 1 ∧
    handle_char_input ⟨[⟨['x'], [['a']], 0, 0⟩], 0, false, 0⟩ 'a' =
      ⟨[⟨['x'], [['a']], 0, 1⟩], 1, false, 0⟩ := by
  refine ⟨by decide, ?_⟩
  have h := (C1_handle_char_input_step ⟨[⟨['x'], [['a']], 0, 0⟩], 0, false, 0⟩ 'a'
      ⟨['x'], [['a']], 0, 0⟩ (by decide) rfl).1 (by decide)
  rw [h]; decide

/-- The switch scan returns exactly the first list position (offset from the
starting index `i0`) whose pattern passes the check. -/
theorem findSwitchAux_some_iff (cur tc : Nat) (pre : List Char) (c : Char) :
    ∀ (ps : List (List Char)) (i0 r : Nat),
      findSwitchAux cur tc pre c ps i0 = some r ↔
        ∃ k, r = i0 + k ∧ k < ps.length ∧
          (i0 + k ≠ cur ∧ pre.isPrefixOf (ps.getD k []) ∧ (ps.getD k []).get? tc = some c) ∧
          ∀ m < k,
            ¬(i0 + m ≠ cur ∧ pre.isPrefixOf (ps.getD m []) ∧ (ps.getD m []).get? tc = some c)
  | [], i0, r => by simp [findSwitchAux]
  | p :: ps, i0, r => by
    rw [findSwitchAux]
    by_cases hq : i0 ≠ cur ∧ pre.isPrefixOf p ∧ p.get? tc = some c
    · rw [if_pos hq]
      constructor
      · intro h
        injection h with h
        exact ⟨0, by omega, by simp, by simpa using hq, by omega⟩
      · rintro ⟨k, rfl, hk, hQ, hmin⟩
        rcases Nat.eq_zero_or_pos k with rfl | hpos
        · simp
        · exact absurd (by simpa using hq) (hmin 0 hpos)
    · rw [if_neg hq]
      rw [findSwitchAux_some_iff cur tc pre c ps (i0 + 1) r]
      constructor
      · rintro ⟨k, rfl, hk, hQ, hmin⟩
        refine ⟨k + 1, by omega, by simpa using hk, ?_, ?_⟩
        · rw [show i0 + (k + 1) = i0 + 1 + k from by omega, List.getD_cons_succ]
          exact hQ
        · intro m hm
          cases m with
          | zero => simpa using hq
          | succ m' =>
            have := hmin m' (Nat.lt_of_succ_lt_succ hm)
            rw [show i0 + (m' + 1) = i0 + 1 + m' from by omega, List.getD_cons_succ]
            exact this
      · rintro ⟨k, rfl, hk, hQ, hmin⟩
        cases k with
        | zero => exact absurd (by simpa using hQ) hq
        | succ k' =>
          refine ⟨k', by omega, by simpa using hk, ?_, ?_⟩
          · rw [show i0 + (k' + 1) = i0 + 1 + k' from by omega, List.getD_cons_succ] at hQ
            exact hQ
          · intro m hm
            have := hmin (m + 1) (Nat.succ_lt_succ hm)
            rw [show i0 + (m + 1) = i0 + 1 + m from by omega, List.getD_cons_succ] at this
            exact this

/-- The source's switch scan finds exactly the first switch target in the
sense of the claim. -/
theorem findSwitch_some_iff (cs : CharState) (c : Char) (i : Nat) :
    findSwitch cs c = some i ↔ FirstSwitchCandidate cs c i := by
  unfold findSwitch FirstSwitchCandidate SwitchCandidate
  rw [findSwitchAux_some_iff]
  constructor
  · rintro ⟨k, rfl, hk, hQ, hmin⟩
    simp only [Nat.zero_add] at hQ hmin ⊢
    exact ⟨⟨hk, hQ⟩, fun j hj hSw => hmin j hj hSw.2⟩
  · rintro ⟨⟨hlen, hQ⟩, hmin⟩
    refine ⟨i, (Nat.zero_add i).symm, hlen, by simpa using hQ, fun m hm hQm => ?_⟩
    exact hmin m hm ⟨Nat.lt_trans hm hlen, by simpa using hQm⟩

/-- The switch scan fails exactly when no candidate is a switch target. -/
theorem findSwitch_none_iff (cs : CharState) (c : Char) :
    findSwitch cs c = none ↔ ∀ i, ¬ SwitchCandidate cs c i := by
  constructor
  · intro h i hi
    have hex : ∃ j, SwitchCandidate cs c j := ⟨i, hi⟩
    have hmin : ∀ j < Nat.find hex, ¬ SwitchCandidate cs c j := fun j hj => Nat.find_min hex hj
    have := (findSwitch_some_iff cs c (Nat.find hex)).2 ⟨Nat.find_spec hex, hmin⟩
    rw [h] at this
    exact Option.noConfusion this
  · intro h
    cases hfs : findSwitch cs c with
    | none => rfl
    | some j => exact absurd ((findSwitch_some_iff cs c j).1 hfs).1 (h j)

/-- C2: for every unit whose assumed candidate does not expect keystroke `c`
at the current confirmed count, the engine switches to the first other
candidate, in candidate-list order, that starts with the already-confirmed
prefix and has `c` at offset confirmed-count, setting the assumed index to
that candidate's index and incrementing the confirmed count; when no such
candidate exists, the keystroke is a miss.  In particular, for a unit with
candidates `si` and `shi`, typing `s` then `h` then `i` completes the unit
with assumed index 1 (pattern `shi`), confirmed count 3, and zero mistakes. -/
theorem C2_try_switch (cs : CharState) (c : Char) (hexp : cs.expected ≠ some c) :
    (∀ i, FirstSwitchCandidate cs c i →
        cs.processChar c =
          some { cs with current_pattern_idx := i, typed_count := cs.typed_count + 1 })
    ∧ ((∀ i, ¬ SwitchCandidate cs c i) → cs.processChar c = none)
    ∧ handle_char_input (handle_char_input (handle_char_input
        ⟨[⟨['し'], [['s','i'], ['s','h','i']], 0, 0⟩], 0, false, 0⟩ 's') 'h') 'i' =
        ⟨[⟨['し'], [['s','i'], ['s','h','i']], 1, 3⟩], 1, false, 0⟩ := by
  refine ⟨?_, ?_, by decide⟩
  · intro i hi
    have h := (findSwitch_some_iff cs c i).2 hi
    simp [CharState.processChar, hexp, h]
  · intro h
    have h2 := (findSwitch_none_iff cs c).2 h
    simp [CharState.processChar, hexp, h2]

/-- Witness for C2 at a concrete input: unit with candidates `si` and `shi`,
one confirmed character, keystroke `h` switches to candidate 1. -/
theorem C2_try_switch_witness :
    CharState.expected ⟨['し'], [['s','i'], ['s','h','i']], 0, 1⟩ ≠ some 'h' ∧
    FirstSwitchCandidate ⟨['し'], [['s','i'], ['s','h','i']], 0, 1⟩ 'h' 1 ∧
    CharState.processChar ⟨['し'], [['s','i'], ['s','h','i']], 0, 1⟩ 'h' =
      some ⟨['し'], [['s','i'], ['s','h','i']], 1, 2⟩ := by
  refine ⟨by decide, by decide, ?_⟩
  have h := (C2_try_switch ⟨['し'], [['s','i'], ['s','h','i']], 0, 1⟩ 'h' (by decide)).1 1
    (by decide)
  rw [h]

/-- C3: for every round state with the cursor in range, a backspace behaves
exactly as the claim describes (`backspace_claim`); the error flag is
cleared unconditionally; and when the cursor is 0 and the unit at 0 has
confirmed count 0, no unit state or cursor changes. -/
theorem C3_handle_backspace (s : RoundState)
    (hle : s.current_char_index ≤ s.char_states.length) :
    handle_backspace s = backspace_claim s
    ∧ (handle_backspace s).is_error = false
    ∧ (s.current_char_index = 0 →
        (s.char_states.getD 0 (CharState.new [] [])).typed_count = 0 →
        (handle_backspace s).char_states = s.char_states ∧
          (handle_backspace s).current_char_index = 0) := by
  refine ⟨?_, rfl, ?_⟩
  · have hg : (s.char_states.length ≤ s.current_char_index ∧ 0 < s.current_char_index) ↔
        (s.current_char_index = s.char_states.length ∧ 0 < s.char_states.length) := by omega
    have ht : ∀ n : Nat, ((n : ℤ) - 1).toNat = n - 1 := fun n => by omega
    unfold handle_backspace backspace_claim
    by_cases h1 : s.char_states.length ≤ s.current_char_index ∧ 0 < s.current_char_index
    · rw [if_pos h1, if_pos (hg.mp h1)]
      simp only [ht]
    · rw [if_neg h1, if_neg (fun hq => h1 (hg.mpr hq))]
      simp only [ht]
  · intro h0 ht0
    rcases Nat.eq_zero_or_pos s.char_states.length with hlen | hlen
    · simp [handle_backspace, h0, hlen]
    · rw [List.getD_eq_getElem s.char_states (CharState.new [] []) hlen] at ht0
      simp [handle_backspace, h0, hlen, ht0]

/-- Witness for C3 at a concrete input: one unit with one confirmed
character; backspace decrements it and clears a pending error flag. -/
theorem C3_handle_backspace_witness :
    (0 : Nat) ≤ 1 ∧
    handle_backspace ⟨[⟨['x'], [['a','b']], 0, 1⟩], 0, true, 2⟩ =
      ⟨[⟨['x'], [['a','b']], 0, 0⟩], 0, false, 2⟩ ∧
    backspace_claim ⟨[⟨['x'], [['a','b']], 0, 1⟩], 0, true, 2⟩ =
      ⟨[⟨['x'], [['a','b']], 0, 0⟩], 0, false, 2⟩ := by
  refine ⟨by decide, by decide, ?_⟩
  rw [← (C3_handle_backspace ⟨[⟨['x'], [['a','b']], 0, 1⟩], 0, true, 2⟩ (by decide)).1]
  decide

/-- The source segmenter computes exactly the claim's position-based scan;
proved by strong induction on the phrase length. -/
theorem parse_eq_segment (dict : List Char → Option (List (List Char))) :
    ∀ (n : Nat) (l : List Char), l.length ≤ n → parse_hiragana dict l = segment_claim dict l
  | _, [], _ => by simp [parse_hiragana, segment_claim]
  | _, [a], _ => by
    cases h1 : dict [a] <;> simp [parse_hiragana, segment_claim, h1]
  | n + 1, [a, b], h => by
    have ih := parse_eq_segment dict n [b] (by simp at h ⊢; omega)
    cases h2 : dict [a, b] <;> cases h1 : dict [a] <;>
      simp [parse_hiragana, segment_claim, h1, h2, ih]
  | n + 1, a :: b :: c :: rest, h => by
    have ih3 := parse_eq_segment dict n rest (by simp at h ⊢; omega)
    have ih2 := parse_eq_segment dict n (c :: rest) (by simp at h ⊢; omega)
    have ih1 := parse_eq_segment dict n (b :: c :: rest) (by simp at h ⊢; omega)
    cases h3 : dict [a, b, c] <;> cases h2 : dict [a, b] <;> cases h1 : dict [a] <;>
      simp [parse_hiragana, segment_claim, h1, h2, h3, ih1, ih2, ih3]

/-- C6: the source segmenter scans left to right trying the 3-, then 2-,
then 1-character substring exactly as the claim describes
(`segment_claim`); the empty phrase yields the empty unit sequence; and a
2-character key is preferred over splitting into 1-character units. -/
theorem C6_segmentation_scan (dict : List Char → Option (List (List Char))) :
    (∀ l, parse_hiragana dict l = segment_claim dict l)
    ∧ parse_hiragana dict [] = []
    ∧ (∀ a b ps, dict [a, b] = some ps →
        parse_hiragana dict [a, b] = [CharState.new [a, b] ps]) := by
  refine ⟨fun l => parse_eq_segment dict l.length l (Nat.le_refl _), rfl, ?_⟩
  intro a b ps h
  simp [parse_hiragana, h]

/-- Witness for C6 at a concrete input: on the phrase `ab` the 2-character
key wins over the two 1-character keys, and the scan agrees with the claim's
description. -/
theorem C6_segmentation_scan_witness :
    dict6 ['a', 'b'] = some [['x']] ∧
    parse_hiragana dict6 ['a', 'b'] = [CharState.new ['a', 'b'] [['x']]] ∧
    parse_hiragana dict6 ['a', 'b'] = segment_claim dict6 ['a', 'b'] :=
  ⟨rfl, (C6_segmentation_scan dict6).2.2 'a' 'b' [['x']] rfl,
    (C6_segmentation_scan dict6).1 ['a', 'b']⟩

/-- Segmentation over a phrase whose every character has a 1-character
dictionary entry consumes every character: the emitted units' kana texts
concatenate back to the phrase. -/
theorem parse_hiragana_covers (dict : List Char → Option (List (List Char))) :
    ∀ (n : Nat) (l : List Char), l.length ≤ n → (∀ a ∈ l, (dict [a]).isSome) →
      ((parse_hiragana dict l).map CharState.hiragana).flatten = l
  | _, [], _, _ => by simp [parse_hiragana]
  | _, [a], _, hcov => by
    have ha := hcov a (by simp)
    cases h1 : dict [a]
    · rw [h1] at ha; simp at ha
    · simp [parse_hiragana, h1, CharState.new]
  | n + 1, [a, b], h, hcov => by
    have ih := parse_hiragana_covers dict n [b] (by simp at h ⊢; omega)
      (fun x hx => hcov x (by simp at hx ⊢; tauto))
    have ha := hcov a (by simp)
    cases h2 : dict [a, b] <;> cases h1 : dict [a] <;>
      simp_all [parse_hiragana, CharState.new]
  | n + 1, a :: b :: c :: rest, h, hcov => by
    have ih3 := parse_hiragana_covers dict n rest (by simp at h ⊢; omega)
      (fun x hx => hcov x (by simp at hx ⊢; tauto))
    have ih2 := parse_hiragana_covers dict n (c :: rest) (by simp at h ⊢; omega)
      (fun x hx => hcov x (by simp at hx ⊢; tauto))
    have ih1 := parse_hiragana_covers dict n (b :: c :: rest) (by simp at h ⊢; omega)
      (fun x hx => hcov x (by simp at hx ⊢; tauto))
    have ha := hcov a (by simp)
    cases h3 : dict [a, b, c] <;> cases h2 : dict [a, b] <;> cases h1 : dict [a] <;>
      simp_all [parse_hiragana, CharState.new]

/-- C7: for every kana string composed solely of characters covered by the
dictionary, segmentation consumes every character into exactly one unit:
concatenating each emitted unit's source kana text in order reproduces the
original string. -/
theorem C7_segmentation_roundtrip (dict : List Char → Option (List (List Char)))
    (l : List Char) (hcov : ∀ a ∈ l, (dict [a]).isSome) :
    ((parse_hiragana dict l).map CharState.hiragana).flatten = l :=
  parse_hiragana_covers dict l.length l (Nat.le_refl _) hcov

/-- Witness for C7 at a concrete input: the phrase `aba` is fully covered
and its segmentation concatenates back to it. -/
theorem C7_segmentation_roundtrip_witness :
    (∀ a ∈ (['a', 'b', 'a'] : List Char), (dict7 [a]).isSome) ∧
    ((parse_hiragana dict7 ['a', 'b', 'a']).map CharState.hiragana).flatten =
      ['a', 'b', 'a'] :=
  ⟨by decide, C7_segmentation_roundtrip dict7 ['a', 'b', 'a'] (by decide)⟩

/-- A successful keystroke on a unit increments the confirmed count, keeps
it within the assumed pattern, and never touches the pattern list or the
kana text. -/
theorem processChar_spec (cs cs2 : CharState) (c : Char)
    (h : cs.processChar c = some cs2) :
    cs2.typed_count = cs.typed_count + 1 ∧
    cs2.typed_count ≤ cs2.current_pattern.length ∧
    cs2.patterns = cs.patterns ∧
    cs2.hiragana = cs.hiragana ∧
    (cs2.current_pattern_idx = cs.current_pattern_idx ∨
      cs2.current_pattern_idx < cs.patterns.length) := by
  unfold CharState.processChar at h
  by_cases hexp : cs.expected = some c
  · rw [if_pos hexp] at h
    injection h with h
    subst h
    refine ⟨rfl, ?_, rfl, rfl, Or.inl rfl⟩
    have hlt : cs.typed_count < cs.current_pattern.length := by
      unfold CharState.expected CharState.remaining at hexp
      rcases hd : cs.current_pattern.drop cs.typed_count with _ | ⟨x, xs⟩
      · rw [hd] at hexp; simp at hexp
      · have h1 : (cs.current_pattern.drop cs.typed_count).length > 0 := by rw [hd]; simp
        rw [List.length_drop] at h1; omega
    simpa [CharState.current_pattern] using hlt
  · rw [if_neg hexp] at h
    cases hfs : findSwitch cs c with
    | none => rw [hfs] at h; exact Option.noConfusion h
    | some i =>
      rw [hfs] at h
      injection h with h
      subst h
      have hc := ((findSwitch_some_iff cs c i).1 hfs).1
      refine ⟨rfl, ?_, rfl, rfl, Or.inr hc.1⟩
      have hlt : cs.typed_count < (cs.patterns.getD i []).length :=
        (List.get?_eq_some.mp hc.2.2.2).1
      simpa [CharState.current_pattern] using hlt

/-- The unit read at any index of a well-formed unit list is well formed
(the out-of-range default is trivially well formed). -/
theorem getD_typed_le (l : List CharState) (i : Nat)
    (h : ∀ cs ∈ l, cs.typed_count ≤ cs.current_pattern.length) :
    (l.getD i (CharState.new [] [])).typed_count ≤
      (l.getD i (CharState.new [] [])).current_pattern.length := by
  rcases Nat.lt_or_ge i l.length with hlt | hge
  · exact h _ (by rw [List.getD_eq_getElem _ _ hlt]; exact List.getElem_mem hlt)
  · rw [List.getD_eq_default _ _ hge]
    simp [CharState.new, CharState.current_pattern]

/-- C5: every keystroke and every backspace preserves the state invariant
`StateWF` (cursor in `[0, unit_count]`, confirmed counts bounded by the
assumed candidate length), and neither operation decreases the mistake
counter. -/
theorem C5_invariant_preservation (s : RoundState) (c : Char) (hwf : StateWF s) :
    (StateWF (handle_char_input s c)
      ∧ s.current_misses ≤ (handle_char_input s c).current_misses)
    ∧ (StateWF (handle_backspace s)
      ∧ s.current_misses ≤ (handle_backspace s).current_misses) := by
  obtain ⟨hcur, hunits⟩ := hwf
  constructor
  · unfold handle_char_input
    dsimp only
    split
    · rename_i hin
      cases hpc : (s.char_states.getD s.current_char_index (CharState.new [] [])).processChar c with
      | none =>
        refine ⟨⟨by simpa using hcur, by simpa using hunits⟩, by simp⟩
      | some cs2 =>
        obtain ⟨-, hle, -, -, -⟩ := processChar_spec _ _ _ hpc
        refine ⟨⟨?_, ?_⟩, by simp⟩
        · simp only [List.length_set]
          split <;> omega
        · intro cs hcs
          simp only at hcs
          rcases List.mem_or_eq_of_mem_set hcs with hmem | rfl
          · exact hunits _ hmem
          · exact hle
    · exact ⟨⟨hcur, hunits⟩, Nat.le_refl _⟩
  · unfold handle_backspace
    dsimp only
    refine ⟨⟨?_, ?_⟩, ?_⟩
    · split <;> split <;> (try split) <;> (try split) <;>
        simp_all [List.length_set] <;> omega
    · intro cs hcs
      revert hcs
      split <;> split <;> (try split) <;> (try split) <;> intro hcs <;>
        (try exact hunits cs hcs) <;>
        (rcases List.mem_or_eq_of_mem_set hcs with hmem | rfl) <;>
        (try exact hunits _ hmem) <;>
        (have h0 := getD_typed_le s.char_states s.current_char_index hunits
         have h1 := getD_typed_le s.char_states (s.current_char_index - 1) hunits
         simp only [CharState.current_pattern] at h0 h1 ⊢
         omega)
    · split <;> split <;> (try split) <;> (try split) <;> simp

/-- Witness for C5 at a concrete input: a well-formed one-unit state stays
well formed under a keystroke and under a backspace. -/
theorem C5_invariant_preservation_witness :
    StateWF (⟨[⟨['x'], [['a', 'b']], 0, 1⟩], 0, false, 0⟩ : RoundState) ∧
    ((StateWF (handle_char_input ⟨[⟨['x'], [['a', 'b']], 0, 1⟩], 0, false, 0⟩ 'b')
        ∧ (⟨[⟨['x'], [['a', 'b']], 0, 1⟩], 0, false, 0⟩ : RoundState).current_misses
            ≤ (handle_char_input ⟨[⟨['x'], [['a', 'b']], 0, 1⟩], 0, false, 0⟩ 'b').current_misses)
      ∧ (StateWF (handle_backspace ⟨[⟨['x'], [['a', 'b']], 0, 1⟩], 0, false, 0⟩)
        ∧ (⟨[⟨['x'], [['a', 'b']], 0, 1⟩], 0, false, 0⟩ : RoundState).current_misses
            ≤ (handle_backspace ⟨[⟨['x'], [['a', 'b']], 0, 1⟩], 0, false, 0⟩).current_misses)) :=
  ⟨by decide, C5_invariant_preservation ⟨[⟨['x'], [['a', 'b']], 0, 1⟩], 0, false, 0⟩ 'b' (by decide)⟩

/-- C8: the scorer computes accuracy as `totalChars / (totalChars +
mistakes) * 100` (100 when the denominator is 0), characters per second as
`totalChars / elapsedSeconds` (0 when elapsedSeconds is 0), the score as
`(charsPerSecond * 100) * (accuracy/100)^3 * totalChars`, and the
experience as `round(totalChars * (1 + charsPerSecond/10) *
(accuracy/100)^3)` rounded to nearest with minimum 0. -/
theorem C8_scoring_formulas (t m : Nat) (d : ℚ) (hd : 0 ≤ d) :
    (t + m = 0 → (compute_result t m d).accuracy = 100)
    ∧ (t + m ≠ 0 → (compute_result t m d).accuracy = ((t : ℚ) / ((t : ℚ) + (m : ℚ))) * 100)
    ∧ (d = 0 → (compute_result t m d).cps = 0)
    ∧ (d ≠ 0 → (compute_result t m d).cps = (t : ℚ) / d)
    ∧ (compute_result t m d).score =
        ((compute_result t m d).cps * 100) * ((compute_result t m d).accuracy / 100) ^ 3 * (t : ℚ)
    ∧ (compute_result t m d).final_xp =
        (round ((t : ℚ) * (1 + (compute_result t m d).cps / 10) *
          ((compute_result t m d).accuracy / 100) ^ 3)).toNat := by
  refine ⟨?_, ?_, ?_, ?_, rfl, rfl⟩
  · intro h
    have ht : t = 0 := by omega
    have hm : m = 0 := by omega
    subst ht hm
    simp [compute_result]
  · intro h
    have hpos : 0 < t + m := Nat.pos_of_ne_zero h
    have hq : (0 : ℚ) < (t : ℚ) + (m : ℚ) := by exact_mod_cast hpos
    simp only [compute_result]
    rw [if_pos hq]
  · intro h
    subst h
    simp [compute_result]
  · intro h
    have hq : (0 : ℚ) < d := lt_of_le_of_ne hd (Ne.symm h)
    simp only [compute_result]
    rw [if_pos hq]

/-- Witness for C8 at a concrete input: 4 characters, 1 mistake, 2 seconds
give accuracy 80 and 2 characters per second. -/
theorem C8_scoring_formulas_witness :
    (0 : ℚ) ≤ 2 ∧ (4 + 1 : Nat) ≠ 0 ∧ (2 : ℚ) ≠ 0 ∧
    (compute_result 4 1 2).accuracy = 80 ∧ (compute_result 4 1 2).cps = 2 := by
  refine ⟨by norm_num, by norm_num, by norm_num, ?_, ?_⟩
  · rw [(C8_scoring_formulas 4 1 2 (by norm_num)).2.1 (by norm_num)]
    norm_num
  · rw [(C8_scoring_formulas 4 1 2 (by norm_num)).2.2.2.1 (by norm_num)]
    norm_num

/-- C9 counterexample: when no start timestamp was ever set,
`next_question` skips the scoring block entirely (`if let Some(start)`), so
the scorer is not invoked with elapsed seconds 0 as the claim states — no
result is produced at all. -/
theorem C9_no_timestamp_counterexample :
    next_question_scoring ⟨[], 0, false, 0⟩ none = none ∧
    next_question_scoring ⟨[], 0, false, 0⟩ none ≠
      some (compute_result (round_total_chars ⟨[], 0, false, 0⟩) 0 0) :=
  ⟨rfl, by simp [next_question_scoring]⟩

/-- C9 (amended): when a round is finalized with a recorded start
timestamp, the scorer runs exactly once, with total characters equal to the
sum over all units of the length of the currently assumed candidate (not
the confirmed count); with no start timestamp the scorer is not invoked and
no result is produced. -/
theorem C9_scoring_invocation (s : RoundState) (d : ℚ) :
    next_question_scoring s (some d) =
      some (compute_result
        ((s.char_states.map (fun cs => cs.current_pattern.length)).sum)
        s.current_misses d)
    ∧ next_question_scoring s none = none :=
  ⟨rfl, rfl⟩

/-- The level-up loop with enough fuel reaches its exit condition: the
final xp lies strictly below the requirement of the final level, the level
never decreases, and the flag reports exactly whether an iteration ran. -/
theorem level_loop_spec (req : Nat → Nat) (hreq : ∀ l, 1 ≤ l → 1 ≤ req l) :
    ∀ (fuel level xp : Nat) (b : Bool), xp < fuel → 1 ≤ level →
      1 ≤ (level_loop req fuel level xp b).1
      ∧ level ≤ (level_loop req fuel level xp b).1
      ∧ (level_loop req fuel level xp b).2.1 < req (level_loop req fuel level xp b).1
      ∧ ((level_loop req fuel level xp b).2.2 = true
          ↔ (b = true ∨ level < (level_loop req fuel level xp b).1))
  | 0, _, _, _, hfuel, _ => absurd hfuel (by omega)
  | fuel + 1, level, xp, b, hfuel, hlvl => by
    rw [level_loop]
    by_cases hc : req level ≤ xp
    · rw [if_pos hc]
      have hr := hreq level hlvl
      have ih := level_loop_spec req hreq fuel (level + 1) (xp - req level) true
        (by omega) (by omega)
      refine ⟨ih.1, by omega, ih.2.2.1, ?_⟩
      rw [ih.2.2.2]
      constructor
      · intro _; right; omega
      · intro _; exact Or.inl rfl
    · rw [if_neg hc]
      exact ⟨hlvl, Nat.le_refl _, show xp < req level by omega, by simp⟩

/-- C10: for every player with level at least 1 and every requirement
function that is positive on positive levels (as `required_xp_for_next_level`
is: `round(level^1.1 * 10)` is at least 10 for level at least 1), `add_xp`
terminates with the loop's exit condition established — the resulting
`current_xp` is strictly below the requirement of the resulting level — it
increases `total_typed_chars` by exactly `chars_typed`, and it returns
`true` if and only if the level increased. -/
theorem C10_add_xp (req : Nat → Nat) (hreq : ∀ l, 1 ≤ l → 1 ≤ req l)
    (pd : PlayerData) (hlvl : 1 ≤ pd.level) (xp_to_add chars_typed : Nat) :
    (add_xp req pd xp_to_add chars_typed).1.total_typed_chars
        = pd.total_typed_chars + chars_typed
    ∧ (add_xp req pd xp_to_add chars_typed).1.current_xp
        < req (add_xp req pd xp_to_add chars_typed).1.level
    ∧ ((add_xp req pd xp_to_add chars_typed).2 = true
        ↔ pd.level < (add_xp req pd xp_to_add chars_typed).1.level) := by
  have h := level_loop_spec req hreq (pd.current_xp + xp_to_add + 1) pd.level
    (pd.current_xp + xp_to_add) false (by omega) hlvl
  refine ⟨rfl, h.2.2.1, ?_⟩
  have he : (add_xp req pd xp_to_add chars_typed).2
      = (level_loop req (pd.current_xp + xp_to_add + 1) pd.level
          (pd.current_xp + xp_to_add) false).2.2 := rfl
  have hl : (add_xp req pd xp_to_add chars_typed).1.level
      = (level_loop req (pd.current_xp + xp_to_add + 1) pd.level
          (pd.current_xp + xp_to_add) false).1 := rfl
  rw [he, hl, h.2.2.2]
  simp

/-- Witness for C10 at a concrete input: constant requirement 10, level 1,
5 existing xp, 17 gained xp and 3 typed characters level the player up
twice. -/
theorem C10_add_xp_witness :
    (∀ l : Nat, 1 ≤ l → 1 ≤ (fun _ : Nat => 10) l) ∧ (1 : Nat) ≤ 1 ∧
    ((add_xp (fun _ => 10) ⟨1, 5, 7, 0⟩ 17 3).1.total_typed_chars = 7 + 3
      ∧ (add_xp (fun _ => 10) ⟨1, 5, 7, 0⟩ 17 3).1.current_xp < 10
      ∧ ((add_xp (fun _ => 10) ⟨1, 5, 7, 0⟩ 17 3).2 = true
          ↔ 1 < (add_xp (fun _ => 10) ⟨1, 5, 7, 0⟩ 17 3).1.level)) :=
  ⟨fun _ _ => by norm_num, by norm_num,
    C10_add_xp (fun _ => 10) (fun _ _ => by norm_num) ⟨1, 5, 7, 0⟩ (by norm_num) 17 3⟩

/-- Reading beside a written index is unchanged. -/
theorem getD_set_ne (l : List CharState) (i j : Nat) (x d : CharState) (h : i ≠ j) :
    (l.set i x).getD j d = l.getD j d := by
  rw [List.getD_eq_getElem?_getD, List.getD_eq_getElem?_getD, List.getElem?_set_ne h]

/-- Reading the written index gives the written unit. -/
theorem getD_set_self (l : List CharState) (i : Nat) (x d : CharState) (h : i < l.length) :
    (l.set i x).getD i d = x := by
  rw [List.getD_eq_getElem?_getD, List.getElem?_set_self h]
  rfl

/-- Writing one unit changes the summed confirmed counts by exactly the
difference at the written index. -/
theorem typed_sum_set (l : List CharState) (i : Nat) (x : CharState) (h : i < l.length) :
    ((l.set i x).map (fun cs => cs.typed_count)).sum
        + (l.getD i (CharState.new [] [])).typed_count
      = (l.map (fun cs => cs.typed_count)).sum + x.typed_count := by
  induction l generalizing i with
  | nil => simp at h
  | cons a as ih =>
    cases i with
    | zero => simp [List.getD]; omega
    | succ j =>
      have hj := ih j (by simpa using h)
      simp only [List.set, List.map, List.sum_cons, List.getD_cons_succ]
      omega

/-- An accepted keystroke preserves the reachability invariant, adds
exactly one confirmed character, and leaves the mistake counter and the
unit count unchanged. -/
theorem accepted_step (s : RoundState) (c : Char) (hg : Good s)
    (ha : acceptedB s c = true) :
    Good (handle_char_input s c)
    ∧ totalTyped (handle_char_input s c) = totalTyped s + 1
    ∧ (handle_char_input s c).current_misses = s.current_misses
    ∧ (handle_char_input s c).char_states.length = s.char_states.length := by
  obtain ⟨hcur, hbefore, hafter, hok⟩ := hg
  rw [acceptedB, Bool.and_eq_true] at ha
  have hin : s.current_char_index < s.char_states.length := by simpa using ha.1
  cases hpc : (s.char_states.getD s.current_char_index (CharState.new [] [])).processChar c with
  | none => rw [hpc] at ha; simp at ha
  | some cs2 =>
    obtain ⟨hty, hle, hpat, -, hidx⟩ := processChar_spec _ _ _ hpc
    have hmem0 : s.char_states.getD s.current_char_index (CharState.new [] [])
        ∈ s.char_states := by
      rw [List.getD_eq_getElem _ _ hin]
      exact List.getElem_mem hin
    have hok0 := hok _ hmem0
    have hpc2 : s.char_states[s.current_char_index].processChar c = some cs2 := by
      rw [← List.getD_eq_getElem s.char_states (CharState.new [] []) hin]
      exact hpc
    have hstep : handle_char_input s c =
        { s with
          char_states := s.char_states.set s.current_char_index cs2
          is_error := false
          current_char_index :=
            if cs2.is_complete then s.current_char_index + 1
            else s.current_char_index } := by
      simp [handle_char_input, hin, hpc2]
    have hcsE : (handle_char_input s c).char_states
        = s.char_states.set s.current_char_index cs2 := by rw [hstep]
    have hcurE : (handle_char_input s c).current_char_index
        = if cs2.is_complete then s.current_char_index + 1
          else s.current_char_index := by rw [hstep]
    have hmissE : (handle_char_input s c).current_misses = s.current_misses := by
      rw [hstep]
    refine ⟨⟨?_, ?_, ?_, ?_⟩, ?_, hmissE, by rw [hcsE]; simp [List.length_set]⟩
    · rw [hcurE, hcsE, List.length_set]
      split <;> omega
    · intro i hi
      rw [hcurE] at hi
      rw [hcsE]
      rcases Nat.lt_or_ge i s.current_char_index with hik | hik
      · rw [getD_set_ne _ _ _ _ _ (by omega)]
        exact hbefore i hik
      · by_cases hcomp : cs2.is_complete
        · rw [if_pos hcomp] at hi
          have hieq : i = s.current_char_index := by omega
          subst hieq
          rw [getD_set_self _ _ _ _ hin]
          simp only [CharState.is_complete, decide_eq_true_eq] at hcomp
          omega
        · rw [if_neg hcomp] at hi
          omega
    · intro i h1 h2
      rw [hcurE] at h1
      rw [hcsE] at h2 ⊢
      have hik : s.current_char_index < i := by
        split at h1 <;> omega
      rw [getD_set_ne _ _ _ _ _ (by omega)]
      exact hafter i hik (by simpa [List.length_set] using h2)
    · intro x hx
      rw [hcsE] at hx
      rcases List.mem_or_eq_of_mem_set hx with hm | rfl
      · exact hok _ hm
      · refine ⟨?_, ?_⟩
        · rcases hidx with h | h
          · rw [h, hpat]; exact hok0.1
          · rw [hpat]; exact h
        · rw [hpat]; exact hok0.2
    · have hsum := typed_sum_set s.char_states s.current_char_index cs2 hin
      simp only [totalTyped]
      rw [hcsE]
      omega

/-- A pattern-sound unit's assumed candidate is non-empty. -/
theorem UnitOK.pattern_pos (u : CharState) (h : UnitOK u) :
    0 < u.current_pattern.length := by
  rcases h with ⟨hidx, hne⟩
  have hmem : u.patterns.getD u.current_pattern_idx [] ∈ u.patterns := by
    rw [List.getD_eq_getElem _ _ hidx]
    exact List.getElem_mem hidx
  rw [CharState.current_pattern]
  exact List.length_pos.mpr (hne _ hmem)

/-- If every unit is untouched, the total confirmed count is zero. -/
theorem totalTyped_eq_zero (s : RoundState)
    (h : ∀ i, i < s.char_states.length →
      (s.char_states.getD i (CharState.new [] [])).typed_count = 0) :
    totalTyped s = 0 := by
  rw [totalTyped]
  apply List.sum_eq_zero_iff.mpr
  intro x hx
  rw [List.mem_map] at hx
  obtain ⟨cs, hcs, rfl⟩ := hx
  rw [List.mem_iff_getElem] at hcs
  obtain ⟨i, hi, rfl⟩ := hcs
  have h2 := h i hi
  rw [List.getD_eq_getElem _ _ hi] at h2
  exact h2


@[simp] theorem setTyped_typed (cs : CharState) (t : Nat) :
    (setTyped cs t).typed_count = t := rfl

@[simp] theorem setTyped_patterns (cs : CharState) (t : Nat) :
    (setTyped cs t).patterns = cs.patterns := rfl

@[simp] theorem setTyped_idx (cs : CharState) (t : Nat) :
    (setTyped cs t).current_pattern_idx = cs.current_pattern_idx := rfl

@[simp] theorem setTyped_pattern (cs : CharState) (t : Nat) :
    (setTyped cs t).current_pattern = cs.current_pattern := rfl

/-- On a state with at least one confirmed character, a backspace
preserves the reachability invariant, removes exactly one confirmed
character, and leaves the mistake counter and the unit count unchanged. -/
theorem backspace_step (s : RoundState) (hg : Good s) (hpos : 0 < totalTyped s) :
    Good (handle_backspace s)
    ∧ totalTyped (handle_backspace s) + 1 = totalTyped s
    ∧ (handle_backspace s).current_misses = s.current_misses
    ∧ (handle_backspace s).char_states.length = s.char_states.length := by
  obtain ⟨hcur, hbefore, hafter, hok⟩ := hg
  by_cases hA : s.char_states.length ≤ s.current_char_index ∧ 0 < s.current_char_index
  · have hklt : s.current_char_index - 1 < s.char_states.length := by omega
    have hmem1 : s.char_states.getD (s.current_char_index - 1) (CharState.new [] [])
        ∈ s.char_states := by
      rw [List.getD_eq_getElem _ _ hklt]
      exact List.getElem_mem hklt
    have hcomp := hbefore (s.current_char_index - 1) (by omega)
    have hlenp := UnitOK.pattern_pos _ (hok _ hmem1)
    have htposE : 0 < s.char_states[s.current_char_index - 1].typed_count := by
      rw [← List.getD_eq_getElem s.char_states (CharState.new [] []) hklt]
      omega
    have hstep : handle_backspace s =
        { s with
          current_char_index := s.current_char_index - 1
          is_error := false
          char_states := s.char_states.set (s.current_char_index - 1)
            (setTyped (s.char_states.getD (s.current_char_index - 1) (CharState.new [] []))
              ((s.char_states.getD (s.current_char_index - 1)
                (CharState.new [] [])).typed_count - 1)) } := by
      simp [handle_backspace, hA, hklt, htposE, setTyped]
    have hcsE : (handle_backspace s).char_states
        = s.char_states.set (s.current_char_index - 1)
            (setTyped (s.char_states.getD (s.current_char_index - 1) (CharState.new [] []))
              ((s.char_states.getD (s.current_char_index - 1)
                (CharState.new [] [])).typed_count - 1)) := by rw [hstep]
    have hcurE : (handle_backspace s).current_char_index
        = s.current_char_index - 1 := by rw [hstep]
    refine ⟨⟨?_, ?_, ?_, ?_⟩, ?_, by rw [hstep], by rw [hcsE]; simp [List.length_set]⟩
    · rw [hcurE, hcsE, List.length_set]
      omega
    · intro i hi
      rw [hcurE] at hi
      rw [hcsE, getD_set_ne _ _ _ _ _ (by omega)]
      exact hbefore i (by omega)
    · intro i h1 h2
      rw [hcurE] at h1
      rw [hcsE, List.length_set] at h2
      omega
    · intro x hx
      rw [hcsE] at hx
      rcases List.mem_or_eq_of_mem_set hx with hm | rfl
      · exact hok _ hm
      · exact ⟨(hok _ hmem1).1, (hok _ hmem1).2⟩
    · have hsum := typed_sum_set s.char_states (s.current_char_index - 1)
        (setTyped (s.char_states.getD (s.current_char_index - 1) (CharState.new [] []))
          ((s.char_states.getD (s.current_char_index - 1)
            (CharState.new [] [])).typed_count - 1)) hklt
      simp only [totalTyped]
      rw [hcsE]
      simp only [setTyped_typed] at hsum
      omega
  · by_cases hB : s.current_char_index < s.char_states.length
    · have hmemB : s.char_states.getD s.current_char_index (CharState.new [] [])
          ∈ s.char_states := by
        rw [List.getD_eq_getElem _ _ hB]
        exact List.getElem_mem hB
      by_cases hT : 0 < (s.char_states.getD s.current_char_index
          (CharState.new [] [])).typed_count
      · have hnA : ¬ s.char_states.length ≤ s.current_char_index := by omega
        have hTE : 0 < s.char_states[s.current_char_index].typed_count := by
          rw [← List.getD_eq_getElem s.char_states (CharState.new [] []) hB]
          omega
        have hstep : handle_backspace s =
            { s with
              is_error := false
              char_states := s.char_states.set s.current_char_index
                (setTyped (s.char_states.getD s.current_char_index (CharState.new [] []))
                  ((s.char_states.getD s.current_char_index
                    (CharState.new [] [])).typed_count - 1)) } := by
          simp [handle_backspace, hnA, hB, hTE, setTyped]
        have hcsE : (handle_backspace s).char_states
            = s.char_states.set s.current_char_index
                (setTyped (s.char_states.getD s.current_char_index (CharState.new [] []))
                  ((s.char_states.getD s.current_char_index
                    (CharState.new [] [])).typed_count - 1)) := by rw [hstep]
        have hcurE : (handle_backspace s).current_char_index
            = s.current_char_index := by rw [hstep]
        refine ⟨⟨?_, ?_, ?_, ?_⟩, ?_, by rw [hstep], by rw [hcsE]; simp [List.length_set]⟩
        · rw [hcurE, hcsE, List.length_set]
          omega
        · intro i hi
          rw [hcurE] at hi
          rw [hcsE, getD_set_ne _ _ _ _ _ (by omega)]
          exact hbefore i hi
        · intro i h1 h2
          rw [hcurE] at h1
          rw [hcsE, List.length_set] at h2
          rw [hcsE, getD_set_ne _ _ _ _ _ (by omega)]
          exact hafter i h1 h2
        · intro x hx
          rw [hcsE] at hx
          rcases List.mem_or_eq_of_mem_set hx with hm | rfl
          · exact hok _ hm
          · exact ⟨(hok _ hmemB).1, (hok _ hmemB).2⟩
        · have hsum := typed_sum_set s.char_states s.current_char_index
            (setTyped (s.char_states.getD s.current_char_index (CharState.new [] []))
              ((s.char_states.getD s.current_char_index
                (CharState.new [] [])).typed_count - 1)) hB
          simp only [totalTyped]
          rw [hcsE]
          simp only [setTyped_typed] at hsum
          omega
      · by_cases hK : 0 < s.current_char_index
        · have hklt : s.current_char_index - 1 < s.char_states.length := by omega
          have hmem1 : s.char_states.getD (s.current_char_index - 1) (CharState.new [] [])
              ∈ s.char_states := by
            rw [List.getD_eq_getElem _ _ hklt]
            exact List.getElem_mem hklt
          have hcomp := hbefore (s.current_char_index - 1) (by omega)
          have hlenp := UnitOK.pattern_pos _ (hok _ hmem1)
          have hnA : ¬ s.char_states.length ≤ s.current_char_index := by omega
          have hTE : ¬ 0 < s.char_states[s.current_char_index].typed_count := by
            rw [← List.getD_eq_getElem s.char_states (CharState.new [] []) hB]
            omega
          have hstep : handle_backspace s =
              { s with
                is_error := false
                current_char_index := s.current_char_index - 1
                char_states := s.char_states.set (s.current_char_index - 1)
                  (setTyped (s.char_states.getD (s.current_char_index - 1) (CharState.new [] []))
                    ((s.char_states.getD (s.current_char_index - 1)
                      (CharState.new [] [])).current_pattern.length - 1)) } := by
            simp [handle_backspace, hnA, hB, hTE, hK, hklt, setTyped]
          have hcsE : (handle_backspace s).char_states
              = s.char_states.set (s.current_char_index - 1)
                  (setTyped (s.char_states.getD (s.current_char_index - 1) (CharState.new [] []))
                    ((s.char_states.getD (s.current_char_index - 1)
                      (CharState.new [] [])).current_pattern.length - 1)) := by rw [hstep]
          have hcurE : (handle_backspace s).current_char_index
              = s.current_char_index - 1 := by rw [hstep]
          refine ⟨⟨?_, ?_, ?_, ?_⟩, ?_, by rw [hstep], by rw [hcsE]; simp [List.length_set]⟩
          · rw [hcurE, hcsE, List.length_set]
            omega
          · intro i hi
            rw [hcurE] at hi
            rw [hcsE, getD_set_ne _ _ _ _ _ (by omega)]
            exact hbefore i (by omega)
          · intro i h1 h2
            rw [hcurE] at h1
            rw [hcsE, List.length_set] at h2
            rw [hcsE, getD_set_ne _ _ _ _ _ (by omega)]
            rcases Nat.lt_or_ge s.current_char_index i with hgt | hge
            · exact hafter i hgt h2
            · have hieq : i = s.current_char_index := by omega
              subst hieq
              omega
          · intro x hx
            rw [hcsE] at hx
            rcases List.mem_or_eq_of_mem_set hx with hm | rfl
            · exact hok _ hm
            · exact ⟨(hok _ hmem1).1, (hok _ hmem1).2⟩
          · have hsum := typed_sum_set s.char_states (s.current_char_index - 1)
              (setTyped (s.char_states.getD (s.current_char_index - 1) (CharState.new [] []))
                ((s.char_states.getD (s.current_char_index - 1)
                  (CharState.new [] [])).current_pattern.length - 1)) hklt
            simp only [totalTyped]
            rw [hcsE]
            simp only [setTyped_typed] at hsum
            omega
        · exfalso
          have hz : totalTyped s = 0 := by
            apply totalTyped_eq_zero
            intro i hi
            rcases Nat.eq_zero_or_pos i with rfl | hipos
            · have hk0 : s.current_char_index = 0 := by omega
              rw [← hk0]
              omega
            · exact hafter i (by omega) hi
          omega
    · exfalso
      have hz : totalTyped s = 0 := by
        apply totalTyped_eq_zero
        intro i hi
        omega
      omega

/-- A good state with no confirmed characters has cursor 0 and every unit
untouched. -/
theorem good_zero (s : RoundState) (hg : Good s) (h0 : totalTyped s = 0) :
    s.current_char_index = 0 ∧ ∀ cs ∈ s.char_states, cs.typed_count = 0 := by
  obtain ⟨hcur, hbefore, hafter, hok⟩ := hg
  rw [totalTyped] at h0
  have hall : ∀ cs ∈ s.char_states, cs.typed_count = 0 := by
    intro cs hcs
    exact List.sum_eq_zero_iff.mp h0 _ (List.mem_map_of_mem _ hcs)
  refine ⟨?_, hall⟩
  by_contra hne
  have hk : 0 < s.current_char_index := Nat.pos_of_ne_zero hne
  have h0lt : 0 < s.char_states.length := by omega
  have hmem : s.char_states.getD 0 (CharState.new [] []) ∈ s.char_states := by
    rw [List.getD_eq_getElem _ _ h0lt]
    exact List.getElem_mem h0lt
  have hc := hbefore 0 hk
  have hp := UnitOK.pattern_pos _ (hok _ hmem)
  have ht := hall _ hmem
  omega

/-- Applying an accepted keystroke sequence keeps the state good, adds one
confirmed character per keystroke, and leaves the mistake counter alone. -/
theorem applyKeys_spec : ∀ (ks : List Char) (s : RoundState), Good s →
    acceptedSeq s ks = true →
    Good (applyKeys s ks)
    ∧ totalTyped (applyKeys s ks) = totalTyped s + ks.length
    ∧ (applyKeys s ks).current_misses = s.current_misses
  | [], s, hg, _ => ⟨hg, by simp [applyKeys], rfl⟩
  | c :: ks, s, hg, hacc => by
    simp only [acceptedSeq, Bool.and_eq_true] at hacc
    have hs := accepted_step s c hg hacc.1
    have ih := applyKeys_spec ks (handle_char_input s c) hs.1 hacc.2
    have hfold : applyKeys s (c :: ks) = applyKeys (handle_char_input s c) ks := rfl
    refine ⟨hfold ▸ ih.1, ?_, ?_⟩
    · rw [hfold, ih.2.1, hs.2.1]
      simp
      omega
    · rw [hfold, ih.2.2, hs.2.2.1]

/-- Applying as many backspaces as there are confirmed characters drains
them all, keeps the state good, and leaves the mistake counter alone. -/
theorem applyBksp_spec : ∀ (n : Nat) (s : RoundState), Good s → totalTyped s = n →
    Good (applyBksp n s)
    ∧ totalTyped (applyBksp n s) = 0
    ∧ (applyBksp n s).current_misses = s.current_misses
  | 0, s, hg, h0 => ⟨hg, h0, rfl⟩
  | n + 1, s, hg, h0 => by
    have hb := backspace_step s hg (by omega)
    have ih := applyBksp_spec n (handle_backspace s) hb.1 (by omega)
    have hfold : applyBksp (n + 1) s = applyBksp n (handle_backspace s) := rfl
    exact ⟨hfold ▸ ih.1, hfold ▸ ih.2.1, by rw [hfold, ih.2.2, hb.2.2.1]⟩

/-- C4 counterexample: from the initial one-unit round with candidates `si`
and `shi`, the keystrokes `s` then `h` are both accepted, yet after two
backspaces the assumed-candidate index is 1, not 0 — the round state does
not return to its exact initial state. -/
theorem C4_counterexample :
    acceptedSeq ⟨[⟨['し'], [['s','i'], ['s','h','i']], 0, 0⟩], 0, false, 0⟩ ['s', 'h'] = true
    ∧ applyBksp 2
        (applyKeys ⟨[⟨['し'], [['s','i'], ['s','h','i']], 0, 0⟩], 0, false, 0⟩ ['s', 'h'])
        = ⟨[⟨['し'], [['s','i'], ['s','h','i']], 1, 0⟩], 0, false, 0⟩
    ∧ (⟨['し'], [['s','i'], ['s','h','i']], 1, 0⟩ : CharState).current_pattern_idx ≠ 0 :=
  ⟨by decide, by decide, by decide⟩

/-- C4 (amended): for every initial round state (cursor 0, all confirmed
counts 0, all assumed indices 0, non-empty candidate lists of non-empty
candidates) and every sequence of accepted keystrokes followed by an equal
number of backspaces, the round returns to cursor 0 with every unit's
confirmed count 0 and the mistake count unchanged; the assumed-candidate
indices, however, are not restored to 0 — backspace never changes them, so
they keep whatever values candidate switches set. -/
theorem C4_backspace_symmetry (s : RoundState) (ks : List Char)
    (hcur0 : s.current_char_index = 0)
    (hty : ∀ cs ∈ s.char_states, cs.typed_count = 0)
    (hidx0 : ∀ cs ∈ s.char_states, cs.current_pattern_idx = 0)
    (hpat : ∀ cs ∈ s.char_states, cs.patterns ≠ [] ∧ ∀ p ∈ cs.patterns, p ≠ [])
    (hacc : acceptedSeq s ks = true) :
    (applyBksp ks.length (applyKeys s ks)).current_char_index = 0
    ∧ (∀ cs ∈ (applyBksp ks.length (applyKeys s ks)).char_states, cs.typed_count = 0)
    ∧ (applyBksp ks.length (applyKeys s ks)).current_misses = s.current_misses := by
  have hg : Good s := by
    refine ⟨by omega, ?_, ?_, ?_⟩
    · intro i hi
      omega
    · intro i h1 h2
      have hmem : s.char_states.getD i (CharState.new [] []) ∈ s.char_states := by
        rw [List.getD_eq_getElem _ _ h2]
        exact List.getElem_mem h2
      exact hty _ hmem
    · intro cs hcs
      refine ⟨?_, (hpat _ hcs).2⟩
      rw [hidx0 _ hcs]
      exact List.length_pos.mpr (hpat _ hcs).1
  have ht0 : totalTyped s = 0 := by
    apply totalTyped_eq_zero
    intro i hi
    have hmem : s.char_states.getD i (CharState.new [] []) ∈ s.char_states := by
      rw [List.getD_eq_getElem _ _ hi]
      exact List.getElem_mem hi
    exact hty _ hmem
  have hk := applyKeys_spec ks s hg hacc
  have hb := applyBksp_spec ks.length (applyKeys s ks) hk.1 (by omega)
  have hz := good_zero _ hb.1 hb.2.1
  exact ⟨hz.1, hz.2, by rw [hb.2.2, hk.2.2]⟩

/-- Witness for the amended C4 at a concrete input: one unit with one
two-character candidate, one accepted keystroke, one backspace; the mistake
counter 5 is preserved and the confirmed counts return to 0. -/
theorem C4_backspace_symmetry_witness :
    ((⟨[⟨['x'], [['a','b']], 0, 0⟩], 0, false, 5⟩ : RoundState).current_char_index = 0
      ∧ (∀ cs ∈ ([⟨['x'], [['a','b']], 0, 0⟩] : List CharState), cs.typed_count = 0)
      ∧ (∀ cs ∈ ([⟨['x'], [['a','b']], 0, 0⟩] : List CharState), cs.current_pattern_idx = 0)
      ∧ (∀ cs ∈ ([⟨['x'], [['a','b']], 0, 0⟩] : List CharState),
          cs.patterns ≠ [] ∧ ∀ p ∈ cs.patterns, p ≠ [])
      ∧ acceptedSeq ⟨[⟨['x'], [['a','b']], 0, 0⟩], 0, false, 5⟩ ['a'] = true)
    ∧ ((applyBksp (['a'] : List Char).length
          (applyKeys ⟨[⟨['x'], [['a','b']], 0, 0⟩], 0, false, 5⟩ ['a'])).current_char_index = 0
      ∧ (∀ cs ∈ (applyBksp (['a'] : List Char).length
          (applyKeys ⟨[⟨['x'], [['a','b']], 0, 0⟩], 0, false, 5⟩ ['a'])).char_states,
            cs.typed_count = 0)
      ∧ (applyBksp (['a'] : List Char).length
          (applyKeys ⟨[⟨['x'], [['a','b']], 0, 0⟩], 0, false, 5⟩ ['a'])).current_misses
        = (⟨[⟨['x'], [['a','b']], 0, 0⟩], 0, false, 5⟩ : RoundState).current_misses) :=
  ⟨⟨rfl, by decide, by decide, by decide, by decide⟩,
    C4_backspace_symmetry ⟨[⟨['x'], [['a','b']], 0, 0⟩], 0, false, 5⟩ ['a']
      rfl (by decide) (by decide) (by decide) (by decide)⟩
